import Mathlib

/-
  Shallow embedding of the SPE feature-extraction pipeline of
  PMTGainAna_module.cc (PDSCali::PMTGain).  C++ doubles are modelled as
  rationals; C++ ints as integers.  Variables that the source keeps as
  doubles but that only ever hold integer sample indices or 0
  (pulse_t_start, pulse_t_end, pulse_t_peak, the entries of
  pulse_t_peak_v) are modelled as integers, which is exact because a
  double represents these small integers exactly.
-/

namespace PMTGainSpec

/-- C++ conversion from a floating-point value to Int_t truncates toward
zero; on rationals this is num tdiv den. -/
def cppTrunc (q : ℚ) : ℤ := Int.tdiv q.num (q.den : ℤ)

/-- The inclusive integer range [lo, lo+1, ..., hi]; empty when hi < lo.
Models the set of indices visited by a C++ loop
for (i = lo; i <= hi; i++). -/
def intRange (lo hi : ℤ) : List ℤ :=
  (List.range (hi + 1 - lo).toNat).map (fun k => lo + (k : ℤ))

/-- Sample access on a waveform or on the baseline-referenced signal.  The
source uses unchecked operator[] and bounds-checked .at; the claims below
only evaluate accesses at in-range indices, and an out-of-range index
(where the source would be undefined behaviour or would throw) returns a
default here. -/
def wvfmAt (w : List ℚ) (i : ℤ) : ℚ := if 0 ≤ i then w.getD i.toNat 0 else 0

/-! ### Noise estimation (lines 366-413 of the source)

The mean loop at lines 372-376 visits [noisebinmin, noisebinmax]; the mean
loop at lines 378-382 visits [noisebin2min, wvf_nbins], upper bound
INCLUSIVE (the loop condition is i <= wvf_nbins).  The variance loops at
lines 403-406 and 408-411 visit [noisebinmin, noisebinmax] and
[noisebin2min - 1, wvf_nbins - 1] (the loop runs from noisebin2min - 1
while i < wvf_nbins). -/

/-- Line 368: Int_t noisebin2min = fN2bmin_factor * wvf_nbins. -/
def noisebin2minOf (fN2bmin_factor : ℚ) (wvf_nbins : ℤ) : ℤ :=
  cppTrunc (fN2bmin_factor * (wvf_nbins : ℚ))

/-- Indices visited by the first mean loop (line 372). -/
def meanIndices1 (noisebinmin noisebinmax : ℤ) : List ℤ := intRange noisebinmin noisebinmax

/-- Indices visited by the second mean loop (line 378): i runs from
noisebin2min to wvf_nbins inclusive, each iteration reading wvf[i]. -/
def meanIndices2 (noisebin2min wvf_nbins : ℤ) : List ℤ := intRange noisebin2min wvf_nbins

/-- Indices visited by the first variance loop (line 403). -/
def varIndices1 (noisebinmin noisebinmax : ℤ) : List ℤ := intRange noisebinmin noisebinmax

/-- Indices visited by the second variance loop (line 408): i runs from
noisebin2min - 1 while i < wvf_nbins. -/
def varIndices2 (noisebin2min wvf_nbins : ℤ) : List ℤ :=
  intRange (noisebin2min - 1) (wvf_nbins - 1)

/-- Line 417: thresh = stdev * fNstdev.  Both start_threshold and
end_threshold (lines 429-430) equal this value. -/
def threshOf (stdev : ℚ) (fNstdev : ℤ) : ℚ := stdev * (fNstdev : ℚ)

/-! ### Pulse detection (lines 425-483 of the source)

The scan state consists of the locals fire, pulse_peak, pulse_t_start,
pulse_t_end, pulse_t_peak, counter, the accepted list pulse_t_peak_v,
peak_count, and the per-run tally failed.  As instrumentation, each
accepted pulse is recorded with all four of the pulse locals as they are
at the push_back site (the source pushes only pulse_t_peak; the accepted
list of the source is recovered as the tPeak projection, detPeaks). -/

/-- One accepted pulse: the values of pulse_t_start, pulse_t_end,
pulse_t_peak and pulse_peak at the moment of the push_back in line 456. -/
structure PulseRec where
  tStart : ℤ
  tEnd : ℤ
  tPeak : ℤ
  peakVal : ℚ
deriving DecidableEq

/-- The scan state of the pulse-detection loop. -/
structure DetSt where
  fire : Bool
  pulse_peak : ℚ
  pulse_t_start : ℤ
  pulse_t_end : ℤ
  pulse_t_peak : ℤ
  counter : ℤ
  recs : List PulseRec
  peak_count : ℤ
  failed : ℤ
deriving DecidableEq

/-- Line 444: pulse_t_start = counter - 1 > 0 ? counter - 1 : counter. -/
def startOf (counter : ℤ) : ℤ := if counter - 1 > 0 then counter - 1 else counter

/-- The four-way branch in the loop body, lines 441-471.  n is
wvfm.size().  In the end-of-pulse branch the source assigns pulse_t_end
(line 451) and then resets all four pulse locals to 0 (line 459), so the
net value of pulse_t_end after the branch is 0. -/
def detBranch (n : ℤ) (thresh : ℚ) (st : DetSt) (adc : ℚ) : DetSt :=
  if st.fire = false ∧ thresh < adc then
    { st with fire := true, pulse_t_start := startOf st.counter }
  else if st.fire = true ∧ adc < thresh then
    let tEnd : ℤ := if st.counter < n then st.counter else st.counter - 1
    if tEnd - st.pulse_t_start > 2 then
      { st with fire := false,
                recs := st.recs ++ [⟨st.pulse_t_start, tEnd, st.pulse_t_peak, st.pulse_peak⟩],
                peak_count := st.peak_count + 1,
                pulse_peak := 0, pulse_t_start := 0, pulse_t_end := 0, pulse_t_peak := 0 }
    else
      { st with fire := false,
                pulse_peak := 0, pulse_t_start := 0, pulse_t_end := 0, pulse_t_peak := 0 }
  else if st.fire = true then
    if st.pulse_peak < adc then
      { st with pulse_peak := adc, pulse_t_peak := st.counter }
    else st
  else st

/-- The loop body without the circuit-breaker line: branch, then
counter++ (line 473). -/
def detStepCore (n : ℤ) (thresh : ℚ) (st : DetSt) (adc : ℚ) : DetSt :=
  let st1 := detBranch n thresh st adc
  { st1 with counter := st1.counter + 1 }

/-- The full loop body: branch, counter++, then the circuit-breaker check
of line 475: if (peak_count==200) { failed++; continue; }.  The continue
targets the innermost for loop and the check is the last statement of the
body, so the breaker only increments failed. -/
def detStep (n : ℤ) (thresh : ℚ) (st : DetSt) (adc : ℚ) : DetSt :=
  let st2 := detStepCore n thresh st adc
  if st2.peak_count = 200 then { st2 with failed := st2.failed + 1 } else st2

/-- Initial state (lines 425-435): fire false, pulse locals 0, counter at
fSpe_region_start, empty accepted list, zero counts. -/
def detInit (s : ℕ) : DetSt :=
  ⟨false, 0, 0, 0, 0, (s : ℤ), [], 0, 0⟩

/-- Lines 479-483: a pulse that did not finish within the readout window
is discarded; the source assigns pulse_t_end = counter - 1 and then
resets all four pulse locals to 0, so the net effect is the reset. -/
def detTail (st : DetSt) : DetSt :=
  if st.fire = true then
    { st with fire := false,
              pulse_peak := 0, pulse_t_start := 0, pulse_t_end := 0, pulse_t_peak := 0 }
  else st

/-- The pulse-detection scan over the baseline-referenced signal from
index fSpe_region_start to the end (line 436 reads wvfm[counter] with
counter = i throughout). -/
def detect (w : List ℚ) (thresh : ℚ) (s : ℕ) : DetSt :=
  detTail ((w.drop s).foldl (detStep (w.length : ℤ) thresh) (detInit s))

/-- The same scan with the circuit-breaker line removed (used to state
that the breaker does not alter the scan). -/
def detectNoBreaker (w : List ℚ) (thresh : ℚ) (s : ℕ) : DetSt :=
  detTail ((w.drop s).foldl (detStepCore (w.length : ℤ) thresh) (detInit s))

/-- The accepted-peak list pulse_t_peak_v of the source: the pushed
pulse_t_peak values in push order. -/
def detPeaks (w : List ℚ) (thresh : ℚ) (s : ℕ) : List ℤ :=
  (detect w thresh s).recs.map PulseRec.tPeak

/-- Two scan states agree on everything except the failed tally. -/
def sameCore (s t : DetSt) : Prop :=
  s.fire = t.fire ∧ s.pulse_peak = t.pulse_peak ∧ s.pulse_t_start = t.pulse_t_start ∧
  s.pulse_t_end = t.pulse_t_end ∧ s.pulse_t_peak = t.pulse_t_peak ∧
  s.counter = t.counter ∧ s.recs = t.recs ∧ s.peak_count = t.peak_count

/-! ### Peak filtering and the downstream extractions -/

/-- Line 518 and lines 558, 621: the boundary check
peakbin - fLowbin < 0 || peakbin + fHibin > wvf_nbins. -/
def boundaryFail (peakbin lowbin hibin n : ℤ) : Prop :=
  peakbin - lowbin < 0 ∨ peakbin + hibin > n

instance (peakbin lowbin hibin n : ℤ) : Decidable (boundaryFail peakbin lowbin hibin n) := by
  unfold boundaryFail; infer_instance

/-- Lines 522-527: the proximity veto.  For peak p, loop over all
accepted peaks q; separation = p - q (computed on doubles holding the
integer bin indices); selected becomes false if separation < 0.1 and
separation > 0; afterwards, if fCut == false, selected is forced true. -/
def selectedFlag (spet : List ℤ) (p : ℤ) (fCut : Bool) : Bool :=
  let sel := spet.foldl
    (fun (sel : Bool) (q : ℤ) =>
      if ((p : ℚ) - (q : ℚ) < 1/10 ∧ 0 < (p : ℚ) - (q : ℚ)) then false else sel)
    true
  if fCut = false then true else sel

/-- Lines 531-534: the values added to the average-SPE running sum for a
selected peak: for j = 1...NBINS (NBINS = fHibin + fLowbin + 1, line 202)
the value wvfm[peakbin - fLowbin + j] is added to bin j. -/
def avgspeContrib (w : List ℚ) (peakbin lowbin hibin : ℤ) : List ℚ :=
  (List.range (hibin + lowbin + 1).toNat).map
    (fun j => wvfmAt w (peakbin - lowbin + ((j : ℤ) + 1)))

/-- Modelled from the words of the claim, for comparison with
avgspeContrib: the baseline-referenced sample values at indices
p - low_bins through p + high_bins. -/
def specWindowVals (w : List ℚ) (p lowbin hibin : ℤ) : List ℚ :=
  (List.range (hibin + lowbin + 1).toNat).map
    (fun j => wvfmAt w (p - lowbin + (j : ℤ)))

/-- Lines 516-537: processing of one accepted peak by the average-SPE
block: the boundary check, the proximity veto, then the element-wise
addition into the running-sum buffer and the navspes increment. -/
def avgspePeakStep (w : List ℚ) (spet : List ℤ) (lowbin hibin n : ℤ) (fCut : Bool)
    (acc : List ℚ × ℤ) (p : ℤ) : List ℚ × ℤ :=
  if boundaryFail p lowbin hibin n then acc
  else if selectedFlag spet p fCut = true then
    (List.zipWith (fun b c => b + c) acc.1 (avgspeContrib w p lowbin hibin), acc.2 + 1)
  else acc

/-- The whole fDo_avgspe block (lines 515-539) over the accepted peaks,
starting from running-sum buffer buf and pulse counter nav. -/
def avgspeStage (w : List ℚ) (spet : List ℤ) (lowbin hibin n : ℤ) (fCut : Bool)
    (buf : List ℚ) (nav : ℤ) : List ℚ × ℤ :=
  spet.foldl (avgspePeakStep w spet lowbin hibin n fCut) (buf, nav)

/-- Lines 542-549: the fDo_amp block.  For every accepted peak, with no
boundary check, wvfm.at(peakbin) is filled into the amplitude histogram
(modelled as an appended list); navspes is incremented here only when the
average-SPE block is off. -/
def ampStage (w : List ℚ) (spet : List ℤ) (do_avgspe : Bool) (nav : ℤ) : List ℚ × ℤ :=
  spet.foldl
    (fun acc p => (acc.1 ++ [wvfmAt w p], if do_avgspe = false then acc.2 + 1 else acc.2))
    ([], nav)

/-- Modelled from the words of the claim, for comparison with ampStage:
the amplitudes of exactly those accepted peaks that survive the boundary
check. -/
def ampFillSpec (w : List ℚ) (spet : List ℤ) (lowbin hibin n : ℤ) : List ℚ :=
  (spet.filter (fun p => decide (¬ boundaryFail p lowbin hibin n))).map (wvfmAt w)

/-! ### End-of-run normalization (lines 722-737 of the source) -/

/-- Lines 731-732: every bin content of an average-SPE histogram is
replaced by le_bin / navspes[ihist], with no check on the divisor. -/
def normalizeHist (h : List ℚ) (nav : ℤ) : List ℚ := h.map (fun b => b / (nav : ℚ))

/-- The divisors used by the endJob normalization loops: for each tracked
channel, one division per bin, always by that channel entry of navspes
(sz bins per histogram). -/
def endJobDivisors (navspes : List ℤ) (sz : ℕ) : List ℤ :=
  navspes.foldl (fun acc nav => acc ++ List.replicate sz nav) []

/-! ### Concrete inputs used by counterexamples and witnesses -/

/-- A scan state with fire off and all pulse locals reset: the state
between pulses. -/
def idleSt (c : ℤ) (r : List PulseRec) (pc fl : ℤ) : DetSt :=
  ⟨false, 0, 0, 0, 0, c, r, pc, fl⟩

/-- A baseline-referenced signal with 201 pulse patterns [2, 2, 0] after
two leading zeros; against threshold 1 every pattern is one accepted
pulse of width 3. -/
def c1wvfm : List ℚ := [0, 0] ++ (List.replicate 201 [(2 : ℚ), 2, 0]).flatten

/-- A baseline-referenced signal whose two pulses, against threshold 0,
are accepted while no sample ever strictly exceeds the initial
pulse_peak of 0, so both recorded peak indices are the stale value 0. -/
def zeroThreshWvfm : List ℚ := [2, 0, 0, 0, -1, 2, 0, 0, 0, -1]

/-- Scan invariant for the order of recorded peak indices.  While firing,
either no sample above the running maximum 0 has been seen yet (the state
is still at the crossing sample, pulse_t_peak is the stale 0) or the
recorded candidate peak lies strictly between the crossing index c and
the current counter and above every previously recorded peak. -/
def IncInv (st : DetSt) : Prop :=
  List.Pairwise (· < ·) (st.recs.map PulseRec.tPeak) ∧
  (∀ r ∈ st.recs, r.tPeak < st.counter) ∧
  (st.fire = false → st.pulse_peak = 0 ∧ st.pulse_t_peak = 0) ∧
  (st.fire = true → ∃ c : ℤ,
    st.pulse_t_start = startOf c ∧ c < st.counter ∧
    ((st.pulse_peak = 0 ∧ st.pulse_t_peak = 0 ∧ st.counter ≤ c + 1) ∨
      (0 < st.pulse_peak ∧ c < st.pulse_t_peak ∧ st.pulse_t_peak < st.counter ∧
        ∀ r ∈ st.recs, r.tPeak < st.pulse_t_peak)))

/-! ### Generic helper -/

/-- Preservation of a predicate along a left fold. -/
theorem foldl_pres {α : Type} {σ : Type} (f : σ → α → σ) (P : σ → Prop)
    (hf : ∀ s a, P s → P (f s a)) : ∀ (l : List α) (s : σ), P s → P (l.foldl f s) := by
  intro l
  induction l with
  | nil => intro s hs; exact hs
  | cons a t ih => intro s hs; exact ih (f s a) (hf s a hs)

/-! ### Claims about the noise windows (C5, C10) -/

/-- Claim C5 counterexample: with fN2bmin_factor = 1/2 and a waveform of
4 samples, the second variance loop visits [1, 2, 3] while the second
mean loop visits [2, 3, 4]; the variance is NOT computed over the same
second index window as the mean. -/
theorem var_window2_differs_from_mean_window2 :
    noisebin2minOf (1/2) 4 = 2 ∧
    varIndices2 (noisebin2minOf (1/2) 4) 4 ≠ meanIndices2 (noisebin2minOf (1/2) 4) 4 := by
  have h : noisebin2minOf (1/2) 4 = 2 := by
    have h4 : (1/2 : ℚ) * ((4 : ℤ) : ℚ) = 2 := by norm_num
    rw [noisebin2minOf, h4]
    decide
  refine ⟨h, ?_⟩
  rw [h]
  decide

/-- Claim C5 amended: the variance loops use the same first window as the
mean loops, but the second variance window is the second mean window
shifted down by one index. -/
theorem var_windows_are_shifted_mean_windows :
    ∀ a b n : ℤ, varIndices1 a b = meanIndices1 a b ∧
      varIndices2 a n = (meanIndices2 a n).map (fun i => i - 1) := by
  intro a b n
  refine ⟨rfl, ?_⟩
  unfold varIndices2 meanIndices2 intRange
  rw [List.map_map]
  have harg : n - 1 + 1 - (a - 1) = n + 1 - a := by ring
  rw [harg]
  congr 1
  funext k
  simp only [Function.comp_apply]
  ring

/-- Claim C10: the second mean loop runs i from noisebin2min to wvf_nbins
INCLUSIVE, so it reads the element at index wvf_nbins, one past the last
valid index; e.g. with fN2bmin_factor = 1/2 on a 4-sample waveform the
loop visits index 4. -/
theorem mean_loop2_reads_one_past_end :
    noisebin2minOf (1/2) 4 = 2 ∧
    ((4 : ℤ) ∈ meanIndices2 2 4) ∧
    ¬ (∀ i ∈ meanIndices2 2 4, i < 4) := by
  refine ⟨?_, by decide, by decide⟩
  have h4 : (1/2 : ℚ) * ((4 : ℤ) : ℚ) = 2 := by norm_num
  rw [noisebin2minOf, h4]
  decide

/-! ### Claim about end-of-run normalization (C3) -/

/-- Claim C3: the endJob normalization divides every bin of every tracked
channel by that channel entry of navspes with no zero check; a channel
whose count is 0 has all its bins divided by 0 (here: two channels with
3 bins each, the second with count 0). -/
theorem endJob_divides_by_zero_count :
    endJobDivisors [5, 0] 3 = [5, 5, 5, 0, 0, 0] ∧ (0 : ℤ) ∈ endJobDivisors [5, 0] 3 := by
  decide

/-! ### Claims about the average-SPE shape accumulation (C4, C2) -/

/-- Claim C4 counterexample: for the signal [0, 1, 2, 3, 4], peak index 2,
low_bins = high_bins = 1 (boundary check passes), the values added are
those at indices 2, 3, 4, not the claimed window [1, 2, 3] at indices
p - low_bins ... p + high_bins. -/
theorem shape_window_cex :
    ¬ boundaryFail 2 1 1 5 ∧
    avgspeContrib [0, 1, 2, 3, 4] 2 1 1 = [2, 3, 4] ∧
    specWindowVals [0, 1, 2, 3, 4] 2 1 1 = [1, 2, 3] ∧
    avgspeContrib [0, 1, 2, 3, 4] 2 1 1 ≠ specWindowVals [0, 1, 2, 3, 4] 2 1 1 := by
  decide

theorem avgspeContrib_eq_shifted_window (w : List ℚ) (p lowbin hibin : ℤ) :
    avgspeContrib w p lowbin hibin = specWindowVals w (p + 1) lowbin hibin := by
  unfold avgspeContrib specWindowVals
  congr 1
  funext j
  congr 1
  ring

/-- Claim C4 amended: a peak p that passes the boundary check and the
veto adds, element-wise, the baseline-referenced values of the window
centred one sample to the right of the claimed one, i.e. the values at
indices (p + 1) - low_bins through (p + 1) + high_bins, and increments
the slot pulse counter by one. -/
theorem shape_adds_shifted_window (w : List ℚ) (spet : List ℤ) (lowbin hibin n : ℤ)
    (fCut : Bool) (buf : List ℚ) (nav : ℤ) (p : ℤ)
    (hb : ¬ boundaryFail p lowbin hibin n) (hs : selectedFlag spet p fCut = true) :
    avgspePeakStep w spet lowbin hibin n fCut (buf, nav) p =
      (List.zipWith (fun b c => b + c) buf (specWindowVals w (p + 1) lowbin hibin), nav + 1) := by
  unfold avgspePeakStep
  rw [if_neg hb, if_pos hs, avgspeContrib_eq_shifted_window]

theorem shape_adds_shifted_window_witness :
    ¬ boundaryFail 2 1 1 5 ∧ selectedFlag [2] 2 false = true ∧
    avgspePeakStep [0, 1, 2, 3, 4] [2] 1 1 5 false ([0, 0, 0], 0) 2 =
      (List.zipWith (fun b c => b + c) [0, 0, 0] (specWindowVals [0, 1, 2, 3, 4] 3 1 1), 0 + 1) :=
  ⟨by decide, rfl,
    shape_adds_shifted_window [0, 1, 2, 3, 4] [2] 1 1 5 false [0, 0, 0] 0 2 (by decide) rfl⟩

/-- The separation test of the proximity veto can never succeed: the
accepted peak entries hold whole sample indices, and no difference of two
integers lies strictly between 0 and 0.1. -/
theorem sep_never_small (p q : ℤ) :
    ¬ ((p : ℚ) - (q : ℚ) < 1/10 ∧ 0 < (p : ℚ) - (q : ℚ)) := by
  rintro ⟨h1, h2⟩
  have hc : ((p - q : ℤ) : ℚ) = (p : ℚ) - (q : ℚ) := by push_cast; ring
  have hpq : (0 : ℤ) < p - q := by
    have : (0 : ℚ) < ((p - q : ℤ) : ℚ) := by rw [hc]; exact h2
    exact_mod_cast this
  have h1' : (1 : ℤ) ≤ p - q := hpq
  have : (1 : ℚ) ≤ ((p - q : ℤ) : ℚ) := by exact_mod_cast h1'
  rw [hc] at this
  linarith

/-- Claim C2 amended: the proximity veto never excludes any peak, with
the veto enabled or disabled, because the separation of two accepted
peaks is an integer number of samples and the test requires it to lie
strictly between 0 and 0.1. -/
theorem veto_never_fires :
    ∀ (spet : List ℤ) (p : ℤ) (fCut : Bool), selectedFlag spet p fCut = true := by
  intro spet p fCut
  unfold selectedFlag
  cases fCut
  · simp
  · rw [if_neg (by simp : ¬ (true = false))]
    exact foldl_pres _ (fun b => b = true)
      (fun b q hb => by rw [if_neg (sep_never_small p q)]; exact hb) spet true rfl

/-- Claim C2 counterexample: with the veto enabled (fCut true), the
zero-threshold run records two accepted peaks both at index 0, separated
by 0 (less than 0.1 time units), and the earlier peak is NOT excluded:
both pass the selection and both contribute to the running sum (the
slot counter advances by 2). -/
theorem veto_cex :
    detPeaks zeroThreshWvfm 0 0 = [0, 0] ∧
    ((0 : ℚ) - (0 : ℚ) < 1/10) ∧
    selectedFlag [0, 0] 0 true = true ∧
    (avgspeStage zeroThreshWvfm [0, 0] 0 1 10 true (List.replicate 2 0) 0).2 = 2 := by
  have hsel : selectedFlag [0, 0] 0 true = true := by
    simp only [selectedFlag, List.foldl_cons, List.foldl_nil]
    rw [if_neg (by simp : ¬ (true = false)), if_neg (sep_never_small 0 0),
      if_neg (sep_never_small 0 0)]
  refine ⟨by decide, by norm_num, hsel, ?_⟩
  have hbnd : ¬ boundaryFail 0 0 1 10 := by decide
  simp only [avgspeStage, List.foldl_cons, List.foldl_nil, avgspePeakStep,
    if_neg hbnd, hsel]
  norm_num

/-! ### Claim about amplitude extraction (C9) -/

theorem ampStage_fst_general (w : List ℚ) (d : Bool) :
    ∀ (spet : List ℤ) (pre : List ℚ) (nav : ℤ),
      (spet.foldl
        (fun acc p => (acc.1 ++ [wvfmAt w p], if d = false then acc.2 + 1 else acc.2))
        (pre, nav)).1 = pre ++ spet.map (wvfmAt w) := by
  intro spet
  induction spet with
  | nil => intro pre nav; simp
  | cons p t ih =>
      intro pre nav
      simp only [List.foldl_cons, List.map_cons]
      rw [ih]
      simp

/-- Claim C9 amended: the amplitude block records the baseline-referenced
value at the peak index for EVERY accepted peak; no boundary check is
applied there. -/
theorem amp_records_every_peak (w : List ℚ) (spet : List ℤ) (d : Bool) (nav : ℤ) :
    (ampStage w spet d nav).1 = spet.map (wvfmAt w) := by
  unfold ampStage
  rw [ampStage_fst_general]
  simp

/-- Claim C9 counterexample: the accepted peak at index 1 fails the
boundary check for low_bins = 5 (its window runs off the array), yet its
amplitude is still recorded; the claimed boundary-filtered extraction
would record nothing. -/
theorem amp_no_boundary_cex :
    detPeaks [2, 2, 2, 0, 0] 1 0 = [1] ∧
    boundaryFail 1 5 1 5 ∧
    (ampStage [2, 2, 2, 0, 0] [1] true 0).1 = [2] ∧
    ampFillSpec [2, 2, 2, 0, 0] [1] 5 1 5 = [] ∧
    (ampStage [2, 2, 2, 0, 0] [1] true 0).1 ≠ ampFillSpec [2, 2, 2, 0, 0] [1] 5 1 5 := by
  decide

/-! ### Claims about the pulse-detection scan (C6, C7) -/

/-- Claim C6 counterexample: scanning [0, 2, 2, 2, 0] against threshold 1
from offset 0, the detector fires at scan index 1 and records pulse start
index 1 (counter - 1 > 0 is false at counter = 1, so the start stays at
counter), not the claimed max(i - 1, 0) = 0. -/
theorem start_index_cex :
    (detect [0, 2, 2, 2, 0] 1 0).recs.map PulseRec.tStart = [1] ∧
    ¬ ((1 : ℤ) = max (1 - 1) 0) := by
  decide

theorem detStep_pulse_t_start (n : ℤ) (th : ℚ) (st : DetSt) (adc : ℚ) :
    (detStep n th st adc).pulse_t_start = (detBranch n th st adc).pulse_t_start := by
  simp only [detStep, detStepCore]
  split <;> rfl

theorem detStep_recs (n : ℤ) (th : ℚ) (st : DetSt) (adc : ℚ) :
    (detStep n th st adc).recs = (detBranch n th st adc).recs := by
  simp only [detStep, detStepCore]
  split <;> rfl

theorem detBranch_of_idle_fire (n : ℤ) (thresh : ℚ) (st : DetSt) (adc : ℚ)
    (hf : st.fire = false) (ha : thresh < adc) :
    detBranch n thresh st adc = { st with fire := true, pulse_t_start := startOf st.counter } := by
  simp only [detBranch]
  rw [if_pos ⟨hf, ha⟩]

/-- Claim C6 amended: on the Idle to InPulse transition the recorded
start index is counter - 1 when counter - 1 > 0 and counter itself
otherwise; this equals max(counter - 1, 0) except at counter = 1, where
the start is 1. -/
theorem start_index_rule (n : ℤ) (thresh : ℚ) (st : DetSt) (adc : ℚ)
    (hf : st.fire = false) (ha : thresh < adc) :
    (detStep n thresh st adc).pulse_t_start =
      if st.counter - 1 > 0 then st.counter - 1 else st.counter := by
  rw [detStep_pulse_t_start, detBranch_of_idle_fire n thresh st adc hf ha]
  rfl

theorem start_index_rule_witness :
    (detInit 3).fire = false ∧ (0 : ℚ) < 1 ∧
    (detStep 10 0 (detInit 3) 1).pulse_t_start =
      if (detInit 3).counter - 1 > 0 then (detInit 3).counter - 1 else (detInit 3).counter :=
  ⟨rfl, by decide, start_index_rule 10 0 (detInit 3) 1 rfl (by decide)⟩

theorem width_branch (n : ℤ) (th : ℚ) (st : DetSt) (adc : ℚ)
    (h : ∀ r ∈ st.recs, 2 < r.tEnd - r.tStart) :
    ∀ r ∈ (detBranch n th st adc).recs, 2 < r.tEnd - r.tStart := by
  simp only [detBranch]
  split_ifs with h1 h2 h3 h4 h5 h6 h7 <;> try exact h
  all_goals
    intro r hr
    rcases List.mem_append.mp hr with hmem | hmem
  case _ => exact h r hmem
  case _ =>
    have he := List.mem_singleton.mp hmem
    subst he
    dsimp only
    omega
  case _ => exact h r hmem
  case _ =>
    have he := List.mem_singleton.mp hmem
    subst he
    dsimp only
    omega

/-- Claim C7: every accepted pulse has end index minus start index
strictly greater than 2; a narrower candidate is silently dropped and is
never appended to the accepted list. -/
theorem pulse_min_width (w : List ℚ) (th : ℚ) (s : ℕ) :
    ∀ r ∈ (detect w th s).recs, 2 < r.tEnd - r.tStart := by
  unfold detect
  have hstep : ∀ (st : DetSt) (adc : ℚ), (∀ r ∈ st.recs, 2 < r.tEnd - r.tStart) →
      ∀ r ∈ (detStep (w.length : ℤ) th st adc).recs, 2 < r.tEnd - r.tStart := by
    intro st adc h
    rw [detStep_recs]
    exact width_branch (w.length : ℤ) th st adc h
  have hfold := foldl_pres (detStep (w.length : ℤ) th)
    (fun st => ∀ r ∈ st.recs, 2 < r.tEnd - r.tStart) hstep (w.drop s)
    (detInit s) (by intro r hr; simp [detInit] at hr)
  unfold detTail
  split <;> exact hfold

theorem pulse_min_width_witness :
    ((⟨1, 5, 3, 2⟩ : PulseRec) ∈ (detect [0, 0, 2, 2, 2, 0] 1 0).recs) ∧
    2 < PulseRec.tEnd ⟨1, 5, 3, 2⟩ - PulseRec.tStart ⟨1, 5, 3, 2⟩ :=
  ⟨by decide, pulse_min_width [0, 0, 2, 2, 2, 0] 1 0 ⟨1, 5, 3, 2⟩ (by decide)⟩

/-! ### Claim C8: order of the accepted peak indices -/

theorem startOf_ge (c : ℤ) : c - 1 ≤ startOf c := by
  unfold startOf; split <;> omega

theorem incInv_detStep_iff (n : ℤ) (th : ℚ) (st : DetSt) (adc : ℚ) :
    IncInv (detStep n th st adc) ↔ IncInv (detStepCore n th st adc) := by
  simp only [detStep]
  split <;> exact Iff.rfl

theorem incInv_init (s : ℕ) : IncInv (detInit s) := by
  refine ⟨List.Pairwise.nil, ?_, fun _ => ⟨rfl, rfl⟩, fun hf => by simp [detInit] at hf⟩
  intro r hr
  simp [detInit] at hr

theorem incInv_detTail (st : DetSt) (h : IncInv st) : IncInv (detTail st) := by
  obtain ⟨hpw, hbnd, hidle, hfire⟩ := h
  unfold detTail
  split
  · exact ⟨hpw, hbnd, fun _ => ⟨rfl, rfl⟩, fun hf => nomatch hf⟩
  · exact ⟨hpw, hbnd, hidle, hfire⟩

theorem incInv_step (n : ℤ) (th : ℚ) (hth : 0 < th) (st : DetSt) (adc : ℚ)
    (h : IncInv st) : IncInv (detStep n th st adc) := by
  rw [incInv_detStep_iff]
  obtain ⟨hpw, hbnd, hidle, hfire⟩ := h
  simp only [detStepCore, detBranch]
  split_ifs with h1 h2 h3 h4 h5 h6 h7 <;> unfold IncInv <;> dsimp only <;>
    refine ⟨?_, ?_, ?_, ?_⟩
  -- case 1: Idle to InPulse
  · exact hpw
  · intro r hr
    have := hbnd r hr
    omega
  · intro hf
    simp at hf
  · intro _
    obtain ⟨hpp0, hptp0⟩ := hidle h1.1
    exact ⟨st.counter, rfl, by omega, Or.inl ⟨hpp0, hptp0, by omega⟩⟩
  -- case 2: end of pulse, tEnd = counter, accepted
  · obtain ⟨c, hcs, hcc, hdisj⟩ := hfire h2.1
    rcases hdisj with ⟨hpp0, hptp0, hle⟩ | ⟨hpp, hcp, hpc, hall⟩
    · exfalso
      have := startOf_ge c
      omega
    · rw [List.map_append]
      refine List.pairwise_append.mpr ⟨hpw, List.pairwise_singleton _ _, ?_⟩
      intro a ha b hb
      rcases List.mem_map.mp ha with ⟨r, hr, hra⟩
      rcases List.mem_map.mp hb with ⟨r2, hr2, hrb⟩
      have hr2' := List.mem_singleton.mp hr2
      subst hr2'
      subst hrb
      subst hra
      exact hall r hr
  · intro r hr
    rcases List.mem_append.mp hr with hmem | hmem
    · have := hbnd r hmem
      omega
    · have he := List.mem_singleton.mp hmem
      subst he
      obtain ⟨c, hcs, hcc, hdisj⟩ := hfire h2.1
      have hsg := startOf_ge c
      rcases hdisj with ⟨hpp0, hptp0, hle⟩ | ⟨hpp, hcp, hpc, hall⟩ <;> dsimp only <;> omega
  · intro _
    exact ⟨rfl, rfl⟩
  · intro hf
    simp at hf
  -- case 3: end of pulse, tEnd = counter, rejected
  · exact hpw
  · intro r hr
    have := hbnd r hr
    omega
  · intro _
    exact ⟨rfl, rfl⟩
  · intro hf
    simp at hf
  -- case 4: end of pulse, tEnd = counter - 1, accepted
  · obtain ⟨c, hcs, hcc, hdisj⟩ := hfire h2.1
    rcases hdisj with ⟨hpp0, hptp0, hle⟩ | ⟨hpp, hcp, hpc, hall⟩
    · exfalso
      have := startOf_ge c
      omega
    · rw [List.map_append]
      refine List.pairwise_append.mpr ⟨hpw, List.pairwise_singleton _ _, ?_⟩
      intro a ha b hb
      rcases List.mem_map.mp ha with ⟨r, hr, hra⟩
      rcases List.mem_map.mp hb with ⟨r2, hr2, hrb⟩
      have hr2' := List.mem_singleton.mp hr2
      subst hr2'
      subst hrb
      subst hra
      exact hall r hr
  · intro r hr
    rcases List.mem_append.mp hr with hmem | hmem
    · have := hbnd r hmem
      omega
    · have he := List.mem_singleton.mp hmem
      subst he
      obtain ⟨c, hcs, hcc, hdisj⟩ := hfire h2.1
      have hsg := startOf_ge c
      rcases hdisj with ⟨hpp0, hptp0, hle⟩ | ⟨hpp, hcp, hpc, hall⟩ <;> dsimp only <;> omega
  · intro _
    exact ⟨rfl, rfl⟩
  · intro hf
    simp at hf
  -- case 5: end of pulse, tEnd = counter - 1, rejected
  · exact hpw
  · intro r hr
    have := hbnd r hr
    omega
  · intro _
    exact ⟨rfl, rfl⟩
  · intro hf
    simp at hf
  -- case 6: in pulse, new running maximum
  · exact hpw
  · intro r hr
    have := hbnd r hr
    omega
  · intro hf
    rw [h6] at hf
    simp at hf
  · intro _
    obtain ⟨c, hcs, hcc, hdisj⟩ := hfire h6
    have hta : th ≤ adc := by
      by_contra hlt
      exact h2 ⟨h6, by linarith⟩
    refine ⟨c, hcs, by omega, Or.inr ⟨by linarith, by omega, by omega, ?_⟩⟩
    intro r hr
    exact hbnd r hr
  -- case 7: in pulse, no new maximum
  · exact hpw
  · intro r hr
    have := hbnd r hr
    omega
  · intro hf
    rw [h6] at hf
    simp at hf
  · intro _
    obtain ⟨c, hcs, hcc, hdisj⟩ := hfire h6
    have hta : th ≤ adc := by
      by_contra hlt
      exact h2 ⟨h6, by linarith⟩
    rcases hdisj with ⟨hpp0, hptp0, hle⟩ | ⟨hpp, hcp, hpc, hall⟩
    · exfalso
      rw [hpp0] at h7
      exact h7 (by linarith)
    · exact ⟨c, hcs, by omega, Or.inr ⟨hpp, hcp, by omega, fun r hr => hall r hr⟩⟩
  -- case 8: idle, below threshold
  · exact hpw
  · intro r hr
    have := hbnd r hr
    omega
  · intro _
    have hf' : st.fire = false := by
      cases hfb : st.fire
      · rfl
      · exact absurd hfb h6
    exact hidle hf'
  · intro hf
    have hf' : st.fire = false := by
      cases hfb : st.fire
      · rfl
      · exact absurd hfb h6
    rw [hf'] at hf
    simp at hf

/-- Claim C8 amended: with a strictly positive detection threshold the
accepted peak indices are strictly increasing; with threshold 0 (or
negative) the stale default peak index 0 can be recorded repeatedly. -/
theorem peaks_strictly_increasing (w : List ℚ) (th : ℚ) (s : ℕ) (hth : 0 < th) :
    List.Pairwise (· < ·) (detPeaks w th s) := by
  have hfold := foldl_pres (detStep (w.length : ℤ) th) IncInv
    (fun st adc h => incInv_step (w.length : ℤ) th hth st adc h) (w.drop s)
    (detInit s) (incInv_init s)
  exact (incInv_detTail _ hfold).1

theorem peaks_strictly_increasing_witness :
    (0 : ℚ) < 1 ∧ List.Pairwise (· < ·) (detPeaks [0, 0, 2, 2, 2, 0] 1 0) :=
  ⟨by decide, peaks_strictly_increasing [0, 0, 2, 2, 2, 0] 1 0 (by decide)⟩

/-- Claim C8 counterexample: scanning zeroThreshWvfm against threshold 0
accepts two pulses during which no sample ever strictly exceeds the
initial running maximum 0, so the stale peak index 0 is pushed twice and
the accepted-peak list [0, 0] is not strictly increasing. -/
theorem peaks_not_increasing_cex :
    detPeaks zeroThreshWvfm 0 0 = [0, 0] ∧
    ¬ List.Pairwise (· < ·) (detPeaks zeroThreshWvfm 0 0) := by
  refine ⟨by decide, ?_⟩
  intro hpw
  have h00 : detPeaks zeroThreshWvfm 0 0 = [0, 0] := by decide
  rw [h00] at hpw
  have := List.pairwise_cons.mp hpw
  have h0 : (0 : ℤ) < 0 := this.1 0 (List.mem_singleton.mpr rfl)
  exact absurd h0 (lt_irrefl 0)

/-! ### Claim C1: the 200-pulse circuit breaker -/

theorem detBranch_failed (n : ℤ) (th : ℚ) (st : DetSt) (a : ℚ) (x : ℤ) :
    detBranch n th { st with failed := x } a = { detBranch n th st a with failed := x } := by
  simp only [detBranch]
  split_ifs <;> rfl

theorem detStepCore_failed (n : ℤ) (th : ℚ) (st : DetSt) (a : ℚ) (x : ℤ) :
    detStepCore n th { st with failed := x } a = { detStepCore n th st a with failed := x } := by
  simp only [detStepCore]
  rw [detBranch_failed]

theorem detStepCore_failed_unchanged (n : ℤ) (th : ℚ) (st : DetSt) (a : ℚ) :
    (detStepCore n th st a).failed = st.failed := by
  simp only [detStepCore, detBranch]
  split_ifs <;> rfl

theorem detStep_eq_core_failed (n : ℤ) (th : ℚ) (st : DetSt) (a : ℚ) :
    detStep n th st a =
      { detStepCore n th st a with
          failed := (if (detStepCore n th st a).peak_count = 200
            then (detStepCore n th st a).failed + 1 else (detStepCore n th st a).failed) } := by
  simp only [detStep]
  split_ifs <;> rfl

theorem foldl_core_failed (n : ℤ) (th : ℚ) :
    ∀ (t : List ℚ) (u : DetSt) (y : ℤ),
      t.foldl (detStepCore n th) { u with failed := y } =
        { t.foldl (detStepCore n th) u with failed := y } := by
  intro t
  induction t with
  | nil => intro u y; rfl
  | cons a l ih =>
      intro u y
      simp only [List.foldl_cons]
      rw [detStepCore_failed]
      exact ih (detStepCore n th u a) y

theorem foldl_step_shadows_core (n : ℤ) (th : ℚ) :
    ∀ (t : List ℚ) (st : DetSt), ∃ x : ℤ,
      t.foldl (detStep n th) st = { t.foldl (detStepCore n th) st with failed := x } := by
  intro t
  induction t with
  | nil => intro st; exact ⟨st.failed, rfl⟩
  | cons a l ih =>
      intro st
      simp only [List.foldl_cons]
      rw [detStep_eq_core_failed]
      obtain ⟨x, hx⟩ := ih { detStepCore n th st a with
          failed := (if (detStepCore n th st a).peak_count = 200
            then (detStepCore n th st a).failed + 1 else (detStepCore n th st a).failed) }
      rw [hx, foldl_core_failed]
      exact ⟨x, rfl⟩

theorem detTail_failed (st : DetSt) (x : ℤ) :
    detTail { st with failed := x } = { detTail st with failed := x } := by
  simp only [detTail]
  split_ifs <;> rfl

/-- Claim C1 amended: reaching 200 accepted pulses does not stop the scan
and does not change what is detected: the whole scan agrees with the
breaker-free scan on every state component except the failed tally, and
the breaker only increments failed, by one at the end of every loop
iteration whose accepted-pulse count is exactly 200 (so possibly many
times in one waveform, and never stopping the scan). -/
theorem breaker_only_counts (w : List ℚ) (th : ℚ) (s : ℕ) :
    sameCore (detect w th s) (detectNoBreaker w th s) ∧
    (∀ (n : ℤ) (st : DetSt) (a : ℚ),
      (detStep n th st a).failed =
        (if (detStepCore n th st a).peak_count = 200 then st.failed + 1 else st.failed)) := by
  constructor
  · unfold detect detectNoBreaker
    obtain ⟨x, hx⟩ := foldl_step_shadows_core (w.length : ℤ) th (w.drop s) (detInit s)
    rw [hx, detTail_failed]
    exact ⟨rfl, rfl, rfl, rfl, rfl, rfl, rfl, rfl⟩
  · intro n st a
    rw [detStep_eq_core_failed]
    dsimp only
    rw [detStepCore_failed_unchanged]

theorem detBranch_of_idle_below (n : ℤ) (th : ℚ) (st : DetSt) (adc : ℚ)
    (hf : st.fire = false) (ha : ¬ th < adc) :
    detBranch n th st adc = st := by
  have c1 : ¬ (st.fire = false ∧ th < adc) := fun h => ha h.2
  have c2 : ¬ (st.fire = true ∧ adc < th) := fun h => by
    rw [hf] at h
    exact absurd h.1 (by simp)
  have c3 : ¬ (st.fire = true) := by simp [hf]
  simp only [detBranch]
  rw [if_neg c1, if_neg c2, if_neg c3]

theorem detBranch_of_inpulse_newmax (n : ℤ) (th : ℚ) (st : DetSt) (adc : ℚ)
    (hf : st.fire = true) (ha : ¬ adc < th) (hm : st.pulse_peak < adc) :
    detBranch n th st adc = { st with pulse_peak := adc, pulse_t_peak := st.counter } := by
  have c1 : ¬ (st.fire = false ∧ th < adc) := fun h => by
    rw [hf] at h
    exact absurd h.1 (by simp)
  have c2 : ¬ (st.fire = true ∧ adc < th) := fun h => ha h.2
  simp only [detBranch]
  rw [if_neg c1, if_neg c2, if_pos hf, if_pos hm]

theorem detBranch_of_endpulse_accept (n : ℤ) (th : ℚ) (st : DetSt) (adc : ℚ)
    (hf : st.fire = true) (ha : adc < th) (hn : st.counter < n)
    (hw : st.counter - st.pulse_t_start > 2) :
    detBranch n th st adc =
      { st with fire := false, pulse_peak := 0, pulse_t_start := 0, pulse_t_end := 0,
                pulse_t_peak := 0,
                recs := st.recs ++
                  [⟨st.pulse_t_start, st.counter, st.pulse_t_peak, st.pulse_peak⟩],
                peak_count := st.peak_count + 1 } := by
  have c1 : ¬ (st.fire = false ∧ th < adc) := fun h => by
    rw [hf] at h
    exact absurd h.1 (by simp)
  have c2 : st.fire = true ∧ adc < th := ⟨hf, ha⟩
  simp only [detBranch]
  rw [if_neg c1, if_pos c2, if_pos hn, if_pos hw]

theorem detStep_idle_above (n : ℤ) (th : ℚ) (st : DetSt) (adc : ℚ)
    (hf : st.fire = false) (ha : th < adc) :
    detStep n th st adc =
      { st with fire := true, pulse_t_start := startOf st.counter,
                counter := st.counter + 1,
                failed := (if st.peak_count = 200 then st.failed + 1 else st.failed) } := by
  rw [detStep_eq_core_failed]
  simp only [detStepCore]
  rw [detBranch_of_idle_fire n th st adc hf ha]

theorem detStep_idle_below (n : ℤ) (th : ℚ) (st : DetSt) (adc : ℚ)
    (hf : st.fire = false) (ha : ¬ th < adc) :
    detStep n th st adc =
      { st with counter := st.counter + 1,
                failed := (if st.peak_count = 200 then st.failed + 1 else st.failed) } := by
  rw [detStep_eq_core_failed]
  simp only [detStepCore]
  rw [detBranch_of_idle_below n th st adc hf ha]

theorem detStep_inpulse_newmax (n : ℤ) (th : ℚ) (st : DetSt) (adc : ℚ)
    (hf : st.fire = true) (ha : ¬ adc < th) (hm : st.pulse_peak < adc) :
    detStep n th st adc =
      { st with pulse_peak := adc, pulse_t_peak := st.counter,
                counter := st.counter + 1,
                failed := (if st.peak_count = 200 then st.failed + 1 else st.failed) } := by
  rw [detStep_eq_core_failed]
  simp only [detStepCore]
  rw [detBranch_of_inpulse_newmax n th st adc hf ha hm]

theorem detStep_endpulse_accept (n : ℤ) (th : ℚ) (st : DetSt) (adc : ℚ)
    (hf : st.fire = true) (ha : adc < th) (hn : st.counter < n)
    (hw : st.counter - st.pulse_t_start > 2) :
    detStep n th st adc =
      { st with fire := false, pulse_peak := 0, pulse_t_start := 0, pulse_t_end := 0,
                pulse_t_peak := 0,
                recs := st.recs ++
                  [⟨st.pulse_t_start, st.counter, st.pulse_t_peak, st.pulse_peak⟩],
                peak_count := st.peak_count + 1, counter := st.counter + 1,
                failed := (if st.peak_count + 1 = 200 then st.failed + 1 else st.failed) } := by
  rw [detStep_eq_core_failed]
  simp only [detStepCore]
  rw [detBranch_of_endpulse_accept n th st adc hf ha hn hw]

theorem c1_pattern_step (n : ℤ) (c : ℤ) (r : List PulseRec) (pc fl : ℤ)
    (hc : 2 ≤ c) (hn : c + 2 < n) :
    [(2 : ℚ), 2, 0].foldl (detStep n 1) (idleSt c r pc fl) =
      idleSt (c + 3) (r ++ [⟨c - 1, c + 2, c + 1, 2⟩]) (pc + 1)
        (fl + (if pc = 200 then 2 else 0) + (if pc + 1 = 200 then 1 else 0)) := by
  have hstart : startOf c = c - 1 := by
    unfold startOf
    rw [if_pos (by omega : c - 1 > 0)]
  simp only [List.foldl_cons, List.foldl_nil]
  rw [detStep_idle_above n 1 (idleSt c r pc fl) 2 rfl (by norm_num)]
  rw [detStep_inpulse_newmax n 1 _ 2 rfl (by norm_num) (show (0 : ℚ) < 2 by norm_num)]
  rw [detStep_endpulse_accept n 1 _ 0 rfl (by norm_num)
    (show c + 1 + 1 < n by omega)
    (show c + 1 + 1 - startOf c > 2 by rw [hstart]; omega)]
  simp only [idleSt, hstart]
  rw [show c + 1 + 1 + 1 = c + 3 from by ring, show c + 1 + 1 = c + 2 from by ring]
  simp only [DetSt.mk.injEq, true_and, and_true]
  split_ifs <;> omega

theorem c1_patfold (n : ℤ) :
    ∀ (m : ℕ) (c : ℤ) (r : List PulseRec) (pc fl : ℤ),
      2 ≤ c → c + 3 * (m : ℤ) - 1 < n → pc + (m : ℤ) < 200 →
      (List.replicate m [(2 : ℚ), 2, 0]).flatten.foldl (detStep n 1) (idleSt c r pc fl) =
        idleSt (c + 3 * (m : ℤ))
          (r ++ (List.range m).map
            (fun k => ⟨c - 1 + 3 * (k : ℤ), c + 2 + 3 * (k : ℤ), c + 1 + 3 * (k : ℤ), 2⟩))
          (pc + (m : ℤ)) fl := by
  intro m
  induction m with
  | zero =>
      intro c r pc fl hc hn hpc
      simp [idleSt]
  | succ m ih =>
      intro c r pc fl hc hn hpc
      rw [List.replicate_succ, List.flatten_cons, List.foldl_append]
      rw [c1_pattern_step n c r pc fl hc (by push_cast at hn; omega)]
      rw [if_neg (show ¬ pc = 200 by push_cast at hpc; omega),
        if_neg (show ¬ pc + 1 = 200 by push_cast at hpc; omega), add_zero, add_zero]
      rw [ih (c + 3) (r ++ [(⟨c - 1, c + 2, c + 1, 2⟩ : PulseRec)]) (pc + 1) fl (by omega)
        (by push_cast at hn ⊢; omega) (by push_cast at hpc ⊢; omega)]
      simp only [idleSt, DetSt.mk.injEq, true_and, and_true]
      refine ⟨by push_cast; ring, ?_, by push_cast; ring⟩
      rw [List.append_assoc]
      congr 1
      rw [List.range_succ_eq_map, List.map_cons, List.map_map, List.singleton_append]
      have hfun : (fun k : ℕ =>
            (⟨c + 3 - 1 + 3 * (k : ℤ), c + 3 + 2 + 3 * (k : ℤ),
              c + 3 + 1 + 3 * (k : ℤ), 2⟩ : PulseRec)) =
          ((fun k : ℕ =>
            (⟨c - 1 + 3 * (k : ℤ), c + 2 + 3 * (k : ℤ),
              c + 1 + 3 * (k : ℤ), 2⟩ : PulseRec)) ∘ Nat.succ) := by
        funext k
        rw [Function.comp_apply, PulseRec.mk.injEq]
        push_cast
        refine ⟨by ring, by ring, by ring, rfl⟩
      rw [hfun]
      congr 1
      simp

theorem detTail_idle (c : ℤ) (r : List PulseRec) (pc fl : ℤ) :
    detTail (idleSt c r pc fl) = idleSt c r pc fl := by
  unfold detTail idleSt
  rw [if_neg (by simp)]

/-- Claim C1 counterexample: on a waveform whose baseline-referenced
signal contains 201 accepted pulses, the failure tally ends at 3, not 1
(it is incremented at the end of each of the three loop iterations during
which the accepted count stays at 200), and the scan does not stop: a
201st pulse is accepted after the breaker fires. -/
theorem breaker_scan_continues_cex :
    (detect c1wvfm 1 0).failed = 3 ∧ ¬ ((detect c1wvfm 1 0).failed = 1) ∧
    (detect c1wvfm 1 0).recs.length = 201 := by
  have hlen : ((c1wvfm.length : ℕ) : ℤ) = 605 := by
    rw [c1wvfm, List.length_append, List.length_flatten, List.map_replicate,
      show ([(2 : ℚ), 2, 0]).length = 3 from rfl, List.sum_replicate,
      show ([(0 : ℚ), 0]).length = 2 from rfl]
    norm_num
  have hsplit : c1wvfm =
      [(0 : ℚ), 0] ++ (List.replicate 199 [(2 : ℚ), 2, 0]).flatten ++
        (List.replicate 2 [(2 : ℚ), 2, 0]).flatten := by
    rw [c1wvfm, show (201 : ℕ) = 199 + 2 from rfl, List.replicate_add, List.flatten_append,
      List.append_assoc]
  unfold detect
  rw [List.drop_zero, hlen, hsplit]
  rw [List.foldl_append, List.foldl_append]
  have hA : [(0 : ℚ), 0].foldl (detStep 605 1) (detInit 0) = idleSt 2 [] 0 0 := by decide
  rw [hA]
  rw [c1_patfold 605 199 2 [] 0 0 (by norm_num) (by norm_num) (by norm_num)]
  rw [show (2 : ℤ) + 3 * ((199 : ℕ) : ℤ) = 599 from by norm_num,
    show (0 : ℤ) + ((199 : ℕ) : ℤ) = 199 from by norm_num, List.nil_append]
  have hC : (List.replicate 2 [(2 : ℚ), 2, 0]).flatten = [(2 : ℚ), 2, 0] ++ [(2 : ℚ), 2, 0] :=
    rfl
  rw [hC, List.foldl_append]
  rw [c1_pattern_step 605 599 _ 199 0 (by norm_num) (by norm_num)]
  rw [if_neg (show ¬ (199 : ℤ) = 200 by norm_num),
    if_pos (show (199 : ℤ) + 1 = 200 by norm_num),
    show (599 : ℤ) + 3 = 602 from by norm_num, show (199 : ℤ) + 1 = 200 from by norm_num,
    show (0 : ℤ) + 0 + 1 = 1 from by norm_num]
  rw [c1_pattern_step 605 602 _ 200 1 (by norm_num) (by norm_num)]
  rw [if_pos (show (200 : ℤ) = 200 from rfl),
    if_neg (show ¬ (200 : ℤ) + 1 = 200 by norm_num),
    show (602 : ℤ) + 3 = 605 from by norm_num, show (200 : ℤ) + 1 = 201 from by norm_num,
    show (1 : ℤ) + 2 + 0 = 3 from by norm_num]
  rw [detTail_idle]
  refine ⟨rfl, by decide, ?_⟩
  norm_num [idleSt, List.length_append, List.length_map, List.length_range,
    List.length_singleton]

end PMTGainSpec
